import Mathlib

/-!
Verification development for three components of the ubuntu-ui-toolkit
repository:

* `UCBottomEdgeRange` (src/Ubuntu/Components/plugin/ucbottomedgerange.cpp):
  a drag section of the BottomEdge panel, with a `[from, to]` ratio
  interval, enabled/commitToTop flags and temporary content overrides.
* `UCArguments` (modules/Ubuntu/Components/plugin/ucarguments.cpp):
  command-line argument parsing (`parseRawArguments`) and the usage/exit
  error path (`quitAndPrintUsage`).
* `UCItemExtension` / `UCThemeUpdateEvent`
  (src/Ubuntu/Components/plugin/ucitemextension.cpp): recursive event
  broadcast over the visual item tree.

`qreal` values are embedded as `ℚ` (the code only copies and compares
them), `QString` as `List Char`, and the Qt object graph as explicit
state records.
-/

/-! ## Bottom edge range: data model

Mirrors the member variables of `UCBottomEdgeRange` and the fields of
`UCBottomEdge` it touches.  The content url and content component are
embedded as values of abstract types `α` and `β`; an invalid `QUrl`
(`m_url.isValid()` false) is `none`, a null `QQmlComponent*` is `none`.
-/

/-- The part of the `UCBottomEdge` state touched by `UCBottomEdgeRange`:
its commit point and its `content` / `contentComponent` properties. -/
structure UCBottomEdge (α β : Type) where
  commitPoint : ℚ
  content : α
  contentComponent : β
deriving Repr, DecidableEq

/-- Member state of `UCBottomEdgeRange` (ucbottomedgerange.cpp).  The two
`PropertyChange` backup pointers are embedded as the backed-up property
values (`none` = null pointer). -/
structure UCBottomEdgeRange (α β : Type) where
  m_bottomEdge : Option (UCBottomEdge α β)
  m_component : Option β
  m_url : Option α
  m_urlBackup : Option α
  m_componentBackup : Option β
  m_from : ℚ
  m_to : ℚ
  m_enabled : Bool
  m_commitToTop : Bool
deriving Repr, DecidableEq

/-- The constructor `UCBottomEdgeRange::UCBottomEdgeRange(QObject *parent)`:
`m_bottomEdge = qobject_cast(parent)`, `m_component = nullptr`,
`m_url` default-invalid, backups null, `m_from = 0.0`, `m_to = -1.0`,
`m_enabled = true`, `m_commitToTop = false`. -/
def UCBottomEdgeRange.mkDefault {α β : Type} (parent : Option (UCBottomEdge α β)) :
    UCBottomEdgeRange α β :=
  { m_bottomEdge := parent
    m_component := none
    m_url := none
    m_urlBackup := none
    m_componentBackup := none
    m_from := 0
    m_to := -1
    m_enabled := true
    m_commitToTop := false }

/-- Embeds `UCBottomEdgeRange::attachToBottomEdge`: stores the bottom edge and,
when `m_to <= 0.0`, adjusts `m_to` to the bottom edge commit point. -/
def UCBottomEdgeRange.attachToBottomEdge {α β : Type}
    (r : UCBottomEdgeRange α β) (bottomEdge : UCBottomEdge α β) :
    UCBottomEdgeRange α β :=
  { r with
    m_bottomEdge := some bottomEdge
    m_to := if r.m_to ≤ 0 then bottomEdge.commitPoint else r.m_to }

/-- Embeds `UCBottomEdgeRange::dragInSection`:
`m_enabled && dragRatio >= m_from && dragRatio <= m_to`. -/
def UCBottomEdgeRange.dragInSection {α β : Type}
    (r : UCBottomEdgeRange α β) (dragRatio : ℚ) : Bool :=
  r.m_enabled && decide (dragRatio ≥ r.m_from) && decide (dragRatio ≤ r.m_to)

/-- Effect of `UCBottomEdgeRange::onDragEnded` on the owning bottom edge:
either nothing (detached), `BottomEdge::commit()`, or
`UCBottomEdgePrivate::positionPanel(m_to)`. -/
inductive BottomEdgeAction where
  | noop
  | commit
  | positionPanel (toRatio : ℚ)
deriving Repr, DecidableEq

/-- Embeds `UCBottomEdgeRange::onDragEnded`: returns early when `m_bottomEdge` is
null; commits when `m_to == commitPoint || m_commitToTop`; otherwise
positions the panel at `m_to`. -/
def UCBottomEdgeRange.onDragEnded {α β : Type}
    (r : UCBottomEdgeRange α β) : BottomEdgeAction :=
  match r.m_bottomEdge with
  | none => .noop
  | some be =>
    if r.m_to = be.commitPoint ∨ r.m_commitToTop = true then .commit
    else .positionPanel r.m_to

/-- Modelled from the spec: the `PropertyChange` helper
(propertychange_p.h / propertychange.cpp) is not under src/.  Per the
spec, overrides are "pushed/popped as temporary property replacements":
creating a `PropertyChange` for a target property backs up its current
value (or binding), `setValue`/`setBinding` installs the override, and
deleting the `PropertyChange` restores the backup.

`UCBottomEdgeRange::enterSection`: when `m_url` is valid, backs up
`BottomEdge::content` into `m_urlBackup` and overrides it with `m_url`;
when `m_component` is set, backs up `BottomEdge::contentComponent` into
`m_componentBackup` and overrides it with `m_component`.  With a null
`m_bottomEdge` the property operations target a null object and have no
effect. -/
def UCBottomEdgeRange.enterSection {α β : Type}
    (r : UCBottomEdgeRange α β) : UCBottomEdgeRange α β :=
  match r.m_bottomEdge with
  | none => r
  | some be0 =>
    let s1 : Option α × UCBottomEdge α β :=
      match r.m_url with
      | some u => (some be0.content, { be0 with content := u })
      | none => (r.m_urlBackup, be0)
    let s2 : Option β × UCBottomEdge α β :=
      match r.m_component with
      | some c => (some s1.2.contentComponent, { s1.2 with contentComponent := c })
      | none => (r.m_componentBackup, s1.2)
    { r with
      m_urlBackup := s1.1
      m_componentBackup := s2.1
      m_bottomEdge := some s2.2 }

/-- Modelled from the spec (see `UCBottomEdgeRange.enterSection`):
deleting a `PropertyChange` restores the backed-up property value.

`UCBottomEdgeRange::exitSection`: deletes `m_componentBackup` (restoring
`BottomEdge::contentComponent`), then deletes `m_urlBackup` (restoring
`BottomEdge::content`); null backups are skipped. -/
def UCBottomEdgeRange.exitSection {α β : Type}
    (r : UCBottomEdgeRange α β) : UCBottomEdgeRange α β :=
  let r1 :=
    match r.m_componentBackup, r.m_bottomEdge with
    | some b, some be =>
      { r with
        m_componentBackup := none
        m_bottomEdge := some { be with contentComponent := b } }
    | some _, none => { r with m_componentBackup := none }
    | none, _ => r
  match r1.m_urlBackup, r1.m_bottomEdge with
  | some b, some be =>
    { r1 with
      m_urlBackup := none
      m_bottomEdge := some { be with content := b } }
  | some _, none => { r1 with m_urlBackup := none }
  | none, _ => r1

/-! ## Argument parser: data model

`QString` is embedded as `List Char` (`QStr`), `QStringList` as
`List QStr`, and `QHash<QString, QStringList>` as an association list
with replace-on-insert semantics (`ValTable`); only key lookups are
observable, matching the unordered hash. -/

/-- A `QString` as its character sequence. -/
abbrev QStr := List Char

/-- A `QHash<QString, QStringList>`. -/
abbrev ValTable := List (QStr × List QStr)

/-- Embeds `QHash::contains`. -/
def tableContains (m : ValTable) (k : QStr) : Bool :=
  m.any fun e => decide (e.1 = k)

/-- Embeds the `QHash::value` lookup (`none` when the key is absent). -/
def lookupT (m : ValTable) (k : QStr) : Option (List QStr) :=
  (m.find? fun e => decide (e.1 = k)).map fun e => e.2

/-- Embeds `QHash::insert`: replaces any previous entry for the key. -/
def insertT (m : ValTable) (k : QStr) (v : List QStr) : ValTable :=
  (k, v) :: m.filter fun e => decide (e.1 ≠ k)

/-- The mutating `QHash::operator[]` used on `expectedArguments[name]`:
returns the stored list, default-inserting an empty list for an absent
key (and returns the possibly-updated hash). -/
def mutGet (m : ValTable) (k : QStr) : List QStr × ValTable :=
  match lookupT m k with
  | some v => (v, m)
  | none => ([], insertT m k [])

/-- Embeds `argumentsValues[""].append(rawArgument)`: appends a token to the
value list of the default (empty-name) argument, default-inserting it. -/
def appendDefault (m : ValTable) (tok : QStr) : ValTable :=
  insertT m [] ((lookupT m []).getD [] ++ [tok])

/-- Embeds `QString::startsWith('-')`. -/
def startsWithDash : QStr → Bool
  | [] => false
  | c :: _ => decide (c = '-')

/-- Embeds `QString::split(sep)` keeping empty parts: the list of maximal
separator-free groups (always nonempty). -/
def splitOnC (c : Char) : QStr → List QStr
  | [] => [[]]
  | x :: xs =>
    match splitOnC c xs with
    | [] => [[]]
    | g :: gs => if x = c then [] :: g :: gs else (x :: g) :: gs

/-- Embeds `QStringList::join(sep)`. -/
def joinWith (sep : Char) : List QStr → QStr
  | [] => []
  | [g] => g
  | g :: gs => g ++ sep :: joinWith sep gs

/-- Lines 148 of parseRawArguments:
`rawArgument.split('-', QString::SkipEmptyParts).join('-')` — split on
`'-'` dropping empty parts, rejoined with `'-'`. -/
def dashStrip (t : QStr) : QStr :=
  joinWith '-' ((splitOnC '-' t).filter fun g => !g.isEmpty)

/-- Lines 148-151 of parseRawArguments: dash handling followed by
`values = rawArgument.split("="); name = values.takeAt(0)`. -/
def nameAndValues (t : QStr) : QStr × List QStr :=
  let vs := splitOnC '=' (dashStrip t)
  (vs.headD [], vs.tail)

/-- The loop state of `UCArguments::parseRawArguments`: the result hash
`argumentsValues`, the (locally copied, mutable through `operator[]`)
`expectedArguments` hash, and the pending `name` / `values` pair. -/
structure ParseState where
  table : ValTable
  expected : ValTable
  name : QStr
  values : List QStr
deriving Repr, DecidableEq

/-- One iteration of the loop body of `UCArguments::parseRawArguments`
(lines 140-167) on the current raw token. -/
def parseStep (s : ParseState) (tok : QStr) : ParseState :=
  if startsWithDash tok then
    let table := if s.name.isEmpty then s.table else insertT s.table s.name s.values
    let nv := nameAndValues tok
    { s with table := table, name := nv.1, values := nv.2 }
  else
    if !tableContains s.expected s.name && s.values.isEmpty then
      { s with values := s.values ++ [tok] }
    else
      let ev := mutGet s.expected s.name
      if s.values.length < ev.1.length then
        { s with values := s.values ++ [tok], expected := ev.2 }
      else
        let table := if s.name.isEmpty then s.table else insertT s.table s.name s.values
        { s with table := appendDefault table tok, expected := ev.2 }

/-- Embeds `UCArguments::parseRawArguments`: folds the loop body over the raw
tokens after the leading binary name and returns `argumentsValues`.  The
`name` / `values` pair still pending when the token list ends is not
inserted. -/
def parseRawArguments (rawArguments : List QStr) (expectedArguments : ValTable) :
    ValTable :=
  (List.foldl parseStep
    { table := [], expected := expectedArguments, name := [], values := [] }
    (rawArguments.drop 1)).table

/-- Embeds `UCArguments::quitAndPrintUsage`: the pair of emitted warning lines
(`errorMessage`, then the usage text built from `m_rawArguments[0]` and
an `Options:` section) and the exit code passed to
`QCoreApplication::exit`. -/
def quitAndPrintUsage (rawArguments : List QStr) (errorMessage : QStr) :
    List QStr × Int :=
  let applicationBinary := rawArguments.headD []
  let usage :=
    "Usage: ".data ++ applicationBinary ++ ['\n'] ++ "Options:".data ++ ['\n']
  ([errorMessage, usage], -1)

/-! ## Theme broadcast: data model

The `QQuickItem` visual tree is embedded as a finite rose tree; each
item records whether it is a `UCStyledItemBase` (the only property the
broadcast code inspects, through `qobject_cast`).  Event deliveries are
identified by the child-index path from the broadcast root, and a
broadcast is embedded as the sequence of delivery paths it performs;
with `ASYNC_BROADCAST` undefined the code uses
`QGuiApplication::sendEvent`, so the sequence is completed before the
call returns. -/

/-- A visual item: whether it casts to `UCStyledItemBase`, and its
`childItems` list. -/
inductive QQuickItem where
  | mk (styled : Bool) (childItems : List QQuickItem)

/-- The `qobject_cast<UCStyledItemBase*>` test. -/
def QQuickItem.styled : QQuickItem → Bool
  | .mk s _ => s

/-- Embeds `QQuickItemPrivate::childItems` / `QQuickItem::childItems()`. -/
def QQuickItem.childItems : QQuickItem → List QQuickItem
  | .mk _ c => c

/-- Shifts a delivery path from child position `i` of a sibling list to
position `i + 1` of the extended list. -/
def bumpPath : List ℕ → List ℕ
  | [] => []
  | i :: p => (i + 1) :: p

/-- Delivery paths of `UCThemeUpdateEvent::broadcastAscendantUpdate`
run on a sibling list: each child receives the event, and the broadcast
recurses into every child whose `childItems` list is nonempty (the
styled-item cut-off is commented out in the source). -/
def ascTraceL : List QQuickItem → List (List ℕ)
  | [] => []
  | .mk _ grand :: rest =>
    [0] ::
      ((if grand.isEmpty then [] else (ascTraceL grand).map fun p => 0 :: p) ++
        (ascTraceL rest).map bumpPath)

/-- Delivery paths of `UCThemeUpdateEvent::broadcastThemeUpdate` run on
a sibling list: each child receives the event, and the broadcast
recurses into a child only when its `childItems` list is nonempty and it
is not a `UCStyledItemBase`. -/
def themeTraceL : List QQuickItem → List (List ℕ)
  | [] => []
  | .mk s grand :: rest =>
    [0] ::
      ((if grand.isEmpty || s then []
        else (themeTraceL grand).map fun p => 0 :: p) ++
        (themeTraceL rest).map bumpPath)

/-- Looks up the node of a sibling list at a nonempty child-index path:
`subAtL l [i]` is the `i`-th sibling, and longer paths descend into its
children.  `subAtL l p` is `some` exactly when `p` identifies a
descendant. -/
def subAtL : List QQuickItem → List ℕ → Option QQuickItem
  | _, [] => none
  | [], _ :: _ => none
  | .mk s grand :: _, 0 :: p =>
    if p.isEmpty then some (.mk s grand) else subAtL grand p
  | _ :: rest, (i + 1) :: p => subAtL rest (i :: p)

/-- Embeds `UCThemeUpdateEvent::broadcastAscendantUpdate(item, ascendantStyled)`:
delivery paths relative to `item`. -/
def broadcastAscendantUpdate (item : QQuickItem) : List (List ℕ) :=
  ascTraceL item.childItems

/-- Embeds `UCThemeUpdateEvent::broadcastThemeUpdate(item, theme)`: delivery
paths relative to `item`. -/
def broadcastThemeUpdate (item : QQuickItem) : List (List ℕ) :=
  themeTraceL item.childItems

/-- Embeds `UCItemExtension::handleParentChanged`: on any parent change of the
extended item, broadcasts an ascendant-style `UCThemeUpdateEvent` over
the item's visual subtree. -/
def handleParentChanged (item : QQuickItem) : List (List ℕ) :=
  broadcastAscendantUpdate item

/-! ## Claims about the bottom edge range -/

/-- A disabled section whose interval nevertheless contains the probed
ratio: `enabled = false`, `from = 0`, `to = 2`. -/
def disabledRange : UCBottomEdgeRange Unit Unit :=
  { @UCBottomEdgeRange.mkDefault Unit Unit none with
    m_enabled := false
    m_to := 2 }

/-- Claim C1, counterexample: for the disabled section `disabledRange`
and ratio `1`, `from ≤ ratio ≤ to` holds but `dragInSection` returns
`false`, so membership is not equivalent to `from ≤ ratio ≤ to` alone. -/
theorem dragInSection_claimC1_counterexample :
    disabledRange.m_from ≤ (1 : ℚ) ∧ (1 : ℚ) ≤ disabledRange.m_to ∧
      disabledRange.dragInSection 1 = false := by
  refine ⟨by decide, by decide, ?_⟩
  simp [UCBottomEdgeRange.dragInSection, disabledRange]

/-- Claim C1 (amended): for every drag progress ratio, `dragInSection`
returns true if and only if the section is enabled and
`from ≤ ratio ≤ to`. -/
theorem dragInSection_iff_enabled_and_between {α β : Type}
    (r : UCBottomEdgeRange α β) (dragRatio : ℚ) :
    r.dragInSection dragRatio = true ↔
      (r.m_enabled = true ∧ r.m_from ≤ dragRatio ∧ dragRatio ≤ r.m_to) := by
  simp [UCBottomEdgeRange.dragInSection, ge_iff_le, and_assoc]

/-- Claim C2: starting from a section attached to a bottom edge with no
backup live, `enterSection` followed by `exitSection` leaves the bottom
edge's `content` and `contentComponent` properties exactly as they were
before entering, and both backups are null again.  (`reason`:
spec-modelled, since `PropertyChange` is not under src/.) -/
theorem enterSection_exitSection_restores {α β : Type}
    (r : UCBottomEdgeRange α β) (be : UCBottomEdge α β)
    (hbe : r.m_bottomEdge = some be)
    (hub : r.m_urlBackup = none) (hcb : r.m_componentBackup = none) :
    ∃ be2 : UCBottomEdge α β,
      (r.enterSection.exitSection).m_bottomEdge = some be2 ∧
      be2.content = be.content ∧
      be2.contentComponent = be.contentComponent ∧
      (r.enterSection.exitSection).m_urlBackup = none ∧
      (r.enterSection.exitSection).m_componentBackup = none := by
  cases hurl : r.m_url <;> cases hcomp : r.m_component <;>
    simp [UCBottomEdgeRange.enterSection, UCBottomEdgeRange.exitSection,
      hbe, hub, hcb, hurl, hcomp]

/-- A concrete attached section overriding both content properties. -/
def c2range : UCBottomEdgeRange ℕ ℕ :=
  { @UCBottomEdgeRange.mkDefault ℕ ℕ (some ⟨1, 2, 3⟩) with
    m_url := some 5
    m_component := some 7 }

/-- Witness for claim C2 at `c2range`. -/
theorem enterSection_exitSection_restores_witness :
    ∃ be2 : UCBottomEdge ℕ ℕ,
      (c2range.enterSection.exitSection).m_bottomEdge = some be2 ∧
      be2.content = (2 : ℕ) ∧
      be2.contentComponent = (3 : ℕ) ∧
      (c2range.enterSection.exitSection).m_urlBackup = none ∧
      (c2range.enterSection.exitSection).m_componentBackup = none :=
  enterSection_exitSection_restores c2range ⟨1, 2, 3⟩ rfl rfl rfl

/-- Claim C3, counterexample: a freshly constructed `UCBottomEdgeRange`
has `from = 0` and `to = -1`, so the claimed invariant `to > from`
already fails at construction. -/
theorem mkDefault_claimC3_counterexample :
    (@UCBottomEdgeRange.mkDefault Unit Unit none).m_from = 0 ∧
    (@UCBottomEdgeRange.mkDefault Unit Unit none).m_to = -1 ∧
    ¬ ((@UCBottomEdgeRange.mkDefault Unit Unit none).m_to >
        (@UCBottomEdgeRange.mkDefault Unit Unit none).m_from) := by
  refine ⟨rfl, rfl, ?_⟩
  decide

/-- Claim C3 (amended): `to > from` does not hold at construction (`to`
starts at the unset sentinel value `-1.0`); `attachToBottomEdge`
replaces a non-positive `to` with the bottom edge's commit point, so
after attachment `to > from` holds whenever `from < commitPoint`, and an
already-positive `to` is left unchanged. -/
theorem attachToBottomEdge_interval {α β : Type}
    (r : UCBottomEdgeRange α β) (be : UCBottomEdge α β) :
    (r.m_to ≤ 0 → r.m_from < be.commitPoint →
      (r.attachToBottomEdge be).m_to > (r.attachToBottomEdge be).m_from) ∧
    (0 < r.m_to → (r.attachToBottomEdge be).m_to = r.m_to) := by
  constructor
  · intro h1 h2
    simpa [UCBottomEdgeRange.attachToBottomEdge, if_pos h1] using h2
  · intro h
    simp [UCBottomEdgeRange.attachToBottomEdge, not_le.mpr h]

/-- Witness for claim C3 (amended): attaching a fresh section to a
bottom edge with commit point `1` establishes `to > from`. -/
theorem attachToBottomEdge_interval_witness :
    ((@UCBottomEdgeRange.mkDefault ℕ ℕ none).attachToBottomEdge
        ⟨1, 2, 3⟩).m_to >
      ((@UCBottomEdgeRange.mkDefault ℕ ℕ none).attachToBottomEdge
        ⟨1, 2, 3⟩).m_from :=
  (attachToBottomEdge_interval (@UCBottomEdgeRange.mkDefault ℕ ℕ none)
    ⟨1, 2, 3⟩).1 (by decide) (by decide)

/-- Claim C6: when the drag ends within an attached section,
`onDragEnded` commits the bottom edge if the section's `to` equals the
bottom edge's commit point or `commitToTop` is set, and otherwise
repositions the panel to the section's `to`. -/
theorem onDragEnded_commits_or_positions {α β : Type}
    (r : UCBottomEdgeRange α β) (be : UCBottomEdge α β)
    (hbe : r.m_bottomEdge = some be) :
    ((r.m_to = be.commitPoint ∨ r.m_commitToTop = true) →
        r.onDragEnded = BottomEdgeAction.commit) ∧
    (¬ (r.m_to = be.commitPoint ∨ r.m_commitToTop = true) →
        r.onDragEnded = BottomEdgeAction.positionPanel r.m_to) := by
  constructor <;> intro h <;>
    simp [UCBottomEdgeRange.onDragEnded, hbe, h]

/-- Witness for claim C6: a section with `to = 1` attached to a bottom
edge with commit point `1` commits on drag end. -/
theorem onDragEnded_commits_or_positions_witness :
    ({ @UCBottomEdgeRange.mkDefault ℕ ℕ (some ⟨1, 2, 3⟩) with m_to := 1 }
        : UCBottomEdgeRange ℕ ℕ).onDragEnded = BottomEdgeAction.commit :=
  (onDragEnded_commits_or_positions
    { @UCBottomEdgeRange.mkDefault ℕ ℕ (some ⟨1, 2, 3⟩) with m_to := 1 }
    ⟨1, 2, 3⟩ rfl).1 (Or.inl rfl)

/-! ## Claims about the argument error path -/

/-- Claim C8: on malformed arguments, `quitAndPrintUsage` emits the
error message together with a usage message that names the application
binary (`m_rawArguments[0]`) and an `Options:` section, and exits with
code `-1`. -/
theorem quitAndPrintUsage_reports_and_exits (bin : QStr) (rest : List QStr)
    (err : QStr) :
    (quitAndPrintUsage (bin :: rest) err).2 = -1 ∧
    err ∈ (quitAndPrintUsage (bin :: rest) err).1 ∧
    ∃ u ∈ (quitAndPrintUsage (bin :: rest) err).1,
      bin <:+: u ∧ "Options:".data <:+: u := by
  refine ⟨rfl, by simp [quitAndPrintUsage], ?_⟩
  refine ⟨"Usage: ".data ++ bin ++ ['\n'] ++ "Options:".data ++ ['\n'],
    by simp [quitAndPrintUsage], ?_, ?_⟩
  · exact ⟨"Usage: ".data, ['\n'] ++ "Options:".data ++ ['\n'], by simp⟩
  · exact ⟨"Usage: ".data ++ bin ++ ['\n'], ['\n'], by simp⟩

/-! ## Splitting lemmas for the tokenizer -/

/-- The function `splitOnC` always yields at least one group. -/
theorem splitOnC_ne_nil (c : Char) (l : QStr) : splitOnC c l ≠ [] := by
  cases l with
  | nil => simp [splitOnC]
  | cons x xs =>
    simp only [splitOnC]
    cases splitOnC c xs with
    | nil => simp
    | cons g gs => by_cases hx : x = c <;> simp [hx]

/-- A separator-free string is a single group. -/
theorem splitOnC_of_not_mem (c : Char) (l : QStr) (h : c ∉ l) :
    splitOnC c l = [l] := by
  induction l with
  | nil => rfl
  | cons x xs ih =>
    simp only [List.mem_cons, not_or] at h
    simp [splitOnC, ih h.2, Ne.symm h.1]

/-- A leading separator opens an empty group. -/
theorem splitOnC_cons_self (c : Char) (l : QStr) :
    splitOnC c (c :: l) = [] :: splitOnC c l := by
  simp only [splitOnC]
  cases hs : splitOnC c l with
  | nil => exact absurd hs (splitOnC_ne_nil c l)
  | cons g gs => simp

/-- Splitting a string that starts with a separator-free part followed
by a separator. -/
theorem splitOnC_append_sep (c : Char) (xs ys : QStr) (h : c ∉ xs) :
    splitOnC c (xs ++ c :: ys) = xs :: splitOnC c ys := by
  induction xs with
  | nil => simpa using splitOnC_cons_self c ys
  | cons x xs ih =>
    simp only [List.mem_cons, not_or] at h
    simp [splitOnC, ih h.2, Ne.symm h.1]

/-- Splitting after a leading run of separators. -/
theorem splitOnC_replicate_append (c : Char) (k : ℕ) (l : QStr) :
    splitOnC c (List.replicate k c ++ l) =
      List.replicate k [] ++ splitOnC c l := by
  induction k with
  | zero => simp
  | succ n ih => simp [List.replicate_succ, splitOnC_cons_self, ih]

/-- Empty groups produced by a separator run are all dropped. -/
theorem filter_nonempty_replicate_nil (k : ℕ) :
    (List.replicate k ([] : QStr)).filter (fun g => !g.isEmpty) = [] := by
  induction k with
  | zero => rfl
  | succ n ih => simp [List.replicate_succ, ih]

/-- Computes `nameAndValues` on a token `-name=value` with a dash-free,
equals-free name and value. -/
theorem nameAndValues_simple (a v : QStr) (ha1 : a ≠ []) (ha2 : '-' ∉ a)
    (ha3 : '=' ∉ a) (hv2 : '-' ∉ v) (hv3 : '=' ∉ v) :
    nameAndValues ('-' :: (a ++ '=' :: v)) = (a, [v]) := by
  have hdash : '-' ∉ a ++ '=' :: v := by
    simp only [List.mem_append, List.mem_cons, not_or]
    exact ⟨ha2, by decide, hv2⟩
  have h1 : dashStrip ('-' :: (a ++ '=' :: v)) = a ++ '=' :: v := by
    rw [dashStrip, splitOnC_cons_self, splitOnC_of_not_mem _ _ hdash]
    simp [joinWith, ha1]
  rw [nameAndValues, h1, splitOnC_append_sep _ _ _ ha3,
    splitOnC_of_not_mem _ _ hv3]
  rfl

/-- Computes `nameAndValues` on a token `-name` with a dash-free, equals-free
name and no `=` part. -/
theorem nameAndValues_plain (b : QStr) (hb1 : b ≠ []) (hb2 : '-' ∉ b)
    (hb3 : '=' ∉ b) :
    nameAndValues ('-' :: b) = (b, []) := by
  have h1 : dashStrip ('-' :: b) = b := by
    rw [dashStrip, splitOnC_cons_self, splitOnC_of_not_mem _ _ hb2]
    simp [joinWith, hb1]
  rw [nameAndValues, h1, splitOnC_of_not_mem _ _ hb3]
  rfl

/-! ## Claims about tokenization (C5) -/

/-- Modelled from the spec's words, for comparison with the code: strip
the prepended dashes from the token, then split the remainder on `=`
into a name and initial values. -/
def specStripAndSplit (t : QStr) : QStr × List QStr :=
  let vs := splitOnC '=' (t.dropWhile fun c => decide (c = '-'))
  (vs.headD [], vs.tail)

/-- Claim C5, counterexample: on the token `-a-` the code computes the
name `a` (the dash split-and-rejoin also drops the trailing dash), while
stripping only the prepended dashes would give the name `a-`. -/
theorem nameAndValues_claimC5_counterexample :
    nameAndValues ['-', 'a', '-'] = (['a'], []) ∧
    specStripAndSplit ['-', 'a', '-'] = (['a', '-'], []) ∧
    nameAndValues ['-', 'a', '-'] ≠ specStripAndSplit ['-', 'a', '-'] := by
  refine ⟨by decide, by decide, by decide⟩

/-- Claim C5 (amended): a dash-led token is rewritten by splitting on
`'-'` with empty parts dropped and rejoining with `'-'` — which strips
the leading dash run, strips any trailing dashes and collapses every
inner dash run to a single dash — and the result is then split on `=`:
the part before the first `=` is the argument name, the parts after it
the initial values. -/
theorem nameAndValues_dash_runs (k : ℕ) (a b v : QStr)
    (ha1 : a ≠ []) (ha2 : '-' ∉ a) (ha3 : '=' ∉ a)
    (hb1 : b ≠ []) (hb2 : '-' ∉ b) (hb3 : '=' ∉ b)
    (hv2 : '-' ∉ v) (hv3 : '=' ∉ v) :
    nameAndValues
        (List.replicate (k + 1) '-' ++ a ++ '-' :: '-' :: (b ++ '=' :: v)) =
      (a ++ '-' :: b, [v]) := by
  have hw : ('-' : Char) ∉ b ++ '=' :: v := by
    simp only [List.mem_append, List.mem_cons, not_or]
    exact ⟨hb2, by decide, hv2⟩
  have h1 : dashStrip
      (List.replicate (k + 1) '-' ++ a ++ '-' :: '-' :: (b ++ '=' :: v)) =
      a ++ '-' :: (b ++ '=' :: v) := by
    rw [dashStrip, List.append_assoc, splitOnC_replicate_append,
      splitOnC_append_sep _ _ _ ha2, splitOnC_cons_self,
      splitOnC_of_not_mem _ _ hw]
    rw [List.filter_append, filter_nonempty_replicate_nil]
    have hbv : (b ++ '=' :: v).isEmpty = false := by
      cases b <;> simp
    simp [ha1, hbv, joinWith]
  have h2 : a ++ '-' :: (b ++ '=' :: v) = (a ++ '-' :: b) ++ '=' :: v := by
    simp
  have h3 : ('=' : Char) ∉ a ++ '-' :: b := by
    simp only [List.mem_append, List.mem_cons, not_or]
    exact ⟨ha3, by decide, hb3⟩
  rw [nameAndValues, h1, h2, splitOnC_append_sep _ _ _ h3,
    splitOnC_of_not_mem _ _ hv3]
  rfl

/-- Witness for claim C5 (amended) on the token `--x--y=z`. -/
theorem nameAndValues_dash_runs_witness :
    nameAndValues
        (List.replicate 2 '-' ++ ['x'] ++ '-' :: '-' :: (['y'] ++ '=' :: ['z'])) =
      (['x'] ++ '-' :: ['y'], [['z']]) :=
  nameAndValues_dash_runs 1 ['x'] ['y'] ['z'] (by decide) (by decide)
    (by decide) (by decide) (by decide) (by decide) (by decide) (by decide)

/-! ## Claims about the argument parser (C4, C9) -/

/-- Raw token list `app -a=1 -a=2`: the name `a` occurs twice and the
second occurrence is still pending when the tokens end. -/
def rawDup : List QStr :=
  [['a', 'p', 'p'], ['-', 'a', '=', '1'], ['-', 'a', '=', '2']]

/-- Claim C4, counterexample: on `app -a=1 -a=2` the resulting table
maps `a` to the FIRST occurrence's values `["1"]`, not the last
occurrence's `["2"]` — the pending last occurrence is never inserted. -/
theorem parseRawArguments_claimC4_counterexample :
    lookupT (parseRawArguments rawDup []) ['a'] = some [['1']] ∧
    some [['1']] ≠ some [['2']] := by
  refine ⟨by decide, by decide⟩

/-- Claim C4 (amended): duplicate names resolve last-writer-wins among
the occurrences that are flushed into the table (an occurrence is
flushed when a later dash-led token, or an overflowing positional token,
arrives); the named argument still pending when the token list ends is
never inserted, so when the last occurrence is the final token the
previously flushed occurrence's values remain.  Here: with a trailing
`-b` token the table maps `a` to the last occurrence's `[v2]`, without
it to the first occurrence's `[v1]`. -/
theorem parseRawArguments_last_flushed_wins (bin a b v1 v2 : QStr)
    (ha1 : a ≠ []) (ha2 : '-' ∉ a) (ha3 : '=' ∉ a)
    (hb1 : b ≠ []) (hb2 : '-' ∉ b) (hb3 : '=' ∉ b)
    (hv12 : '-' ∉ v1) (hv13 : '=' ∉ v1)
    (hv22 : '-' ∉ v2) (hv23 : '=' ∉ v2) :
    lookupT (parseRawArguments
        [bin, '-' :: (a ++ '=' :: v1), '-' :: (a ++ '=' :: v2), '-' :: b] [])
        a = some [v2] ∧
    lookupT (parseRawArguments
        [bin, '-' :: (a ++ '=' :: v1), '-' :: (a ++ '=' :: v2)] [])
        a = some [v1] := by
  have hne : a.isEmpty = false := by
    cases a
    · exact absurd rfl ha1
    · rfl
  have e1 : parseStep ⟨[], [], [], []⟩ ('-' :: (a ++ '=' :: v1)) =
      ⟨[], [], a, [v1]⟩ := by
    simp [parseStep, startsWithDash,
      nameAndValues_simple a v1 ha1 ha2 ha3 hv12 hv13]
  have e2 : parseStep ⟨[], [], a, [v1]⟩ ('-' :: (a ++ '=' :: v2)) =
      ⟨[(a, [v1])], [], a, [v2]⟩ := by
    simp [parseStep, startsWithDash, hne, insertT,
      nameAndValues_simple a v2 ha1 ha2 ha3 hv22 hv23]
  have e3 : parseStep ⟨[(a, [v1])], [], a, [v2]⟩ ('-' :: b) =
      ⟨[(a, [v2])], [], b, []⟩ := by
    simp [parseStep, startsWithDash, hne, insertT,
      nameAndValues_plain b hb1 hb2 hb3]
  constructor
  · rw [parseRawArguments]
    simp only [List.drop_succ_cons, List.drop_zero, List.foldl_cons,
      List.foldl_nil, e1, e2, e3]
    simp [lookupT]
  · rw [parseRawArguments]
    simp only [List.drop_succ_cons, List.drop_zero, List.foldl_cons,
      List.foldl_nil, e1, e2]
    simp [lookupT]

/-- Witness for claim C4 (amended) on `app -a=1 -a=2 -b` versus
`app -a=1 -a=2`. -/
theorem parseRawArguments_last_flushed_wins_witness :
    lookupT (parseRawArguments
        [['a', 'p', 'p'], '-' :: (['a'] ++ '=' :: ['1']),
          '-' :: (['a'] ++ '=' :: ['2']), '-' :: ['b']] [])
        ['a'] = some [['2']] ∧
    lookupT (parseRawArguments
        [['a', 'p', 'p'], '-' :: (['a'] ++ '=' :: ['1']),
          '-' :: (['a'] ++ '=' :: ['2'])] [])
        ['a'] = some [['1']] :=
  parseRawArguments_last_flushed_wins ['a', 'p', 'p'] ['a'] ['b'] ['1'] ['2']
    (by decide) (by decide) (by decide) (by decide) (by decide) (by decide)
    (by decide) (by decide) (by decide) (by decide)

/-- Inserted keys are found with the inserted values. -/
theorem lookupT_insertT_self (m : ValTable) (k : QStr) (v : List QStr) :
    lookupT (insertT m k v) k = some v := by
  simp [lookupT, insertT, List.find?_cons_of_pos]

/-- Inserting one key does not change lookups of other keys. -/
theorem lookupT_insertT_ne (m : ValTable) (k k2 : QStr) (v : List QStr)
    (h : k2 ≠ k) : lookupT (insertT m k v) k2 = lookupT m k2 := by
  simp only [lookupT, insertT]
  rw [List.find?_cons_of_neg (m.filter fun e => decide (e.1 ≠ k))
    (by simpa using Ne.symm h)]
  congr 1
  induction m with
  | nil => rfl
  | cons e m ih =>
    by_cases hq : e.1 = k
    · rw [List.filter_cons_of_neg (by simp [hq]),
        List.find?_cons_of_neg m (by simp [hq, Ne.symm h]), ih]
    · rw [List.filter_cons_of_pos (by simp [hq])]
      by_cases hp : e.1 = k2
      · rw [List.find?_cons_of_pos (m.filter fun e => decide (e.1 ≠ k))
          (by simp [hp]), List.find?_cons_of_pos m (by simp [hp])]
      · rw [List.find?_cons_of_neg (m.filter fun e => decide (e.1 ≠ k))
          (by simp [hp]), List.find?_cons_of_neg m (by simp [hp]), ih]

/-- An absent key looks up to `none`. -/
theorem lookupT_eq_none_of_not_contains (m : ValTable) (k : QStr)
    (h : tableContains m k = false) : lookupT m k = none := by
  induction m with
  | nil => rfl
  | cons e m ih =>
    simp only [tableContains, List.any_cons, Bool.or_eq_false_iff,
      decide_eq_false_iff_not] at h
    rw [lookupT, List.find?_cons_of_neg m (by simp [h.1])]
    exact ih (by simp [tableContains, h.2])

/-- Run of positional tokens while the pending named argument already
carries values and its expected-value list is empty (absent, or
default-inserted by a previous `operator[]` call): each token flushes
the pending pair and lands in the default argument's list, and the
pending pair itself is left unchanged. -/
theorem parseStep_overflow_run (rest : List QStr) (s : ParseState)
    (hr : ∀ t ∈ rest, startsWithDash t = false)
    (hn : s.name ≠ []) (hv : s.values ≠ [])
    (he : (lookupT s.expected s.name).getD [] = []) :
    (List.foldl parseStep s rest).name = s.name ∧
    (List.foldl parseStep s rest).values = s.values ∧
    (rest = [] → List.foldl parseStep s rest = s) ∧
    (rest ≠ [] →
      lookupT (List.foldl parseStep s rest).table s.name = some s.values ∧
      lookupT (List.foldl parseStep s rest).table [] =
        some ((lookupT s.table []).getD [] ++ rest)) := by
  induction rest generalizing s with
  | nil => exact ⟨rfl, rfl, fun _ => rfl, fun h => absurd rfl h⟩
  | cons t rest ih =>
    have ht : startsWithDash t = false := hr t (by simp)
    have hr2 : ∀ u ∈ rest, startsWithDash u = false := fun u hu =>
      hr u (by simp [hu])
    have hnE : s.name.isEmpty = false := by simp [hn]
    have hvE : s.values.isEmpty = false := by simp [hv]
    have hev : (mutGet s.expected s.name).1 = [] := by
      rw [mutGet]
      cases hl : lookupT s.expected s.name with
      | none => rfl
      | some w => rw [hl] at he; simpa using he
    have hstep : parseStep s t =
        ⟨appendDefault (insertT s.table s.name s.values) t,
          (mutGet s.expected s.name).2, s.name, s.values⟩ := by
      simp [parseStep, ht, hvE, hnE, hev]
    have he2 : (lookupT (mutGet s.expected s.name).2 s.name).getD [] = [] := by
      rw [mutGet]
      cases hl : lookupT s.expected s.name with
      | none => simp [lookupT_insertT_self]
      | some w => rw [hl] at he; simpa [hl] using he
    have hlookN :
        lookupT (appendDefault (insertT s.table s.name s.values) t) s.name =
          some s.values := by
      rw [appendDefault, lookupT_insertT_ne _ _ _ _ hn, lookupT_insertT_self]
    have hlookD :
        lookupT (appendDefault (insertT s.table s.name s.values) t) [] =
          some ((lookupT s.table []).getD [] ++ [t]) := by
      rw [appendDefault, lookupT_insertT_self,
        lookupT_insertT_ne _ _ _ _ (Ne.symm hn)]
    rw [List.foldl_cons, hstep]
    obtain ⟨ihn, ihv, ihnil, ihcons⟩ :=
      ih ⟨appendDefault (insertT s.table s.name s.values) t,
        (mutGet s.expected s.name).2, s.name, s.values⟩ hr2 hn hv he2
    refine ⟨ihn, ihv, fun h => absurd h (by simp), fun _ => ?_⟩
    by_cases hrest : rest = []
    · subst hrest
      rw [ihnil rfl]
      exact ⟨hlookN, hlookD⟩
    · obtain ⟨h1, h2⟩ := ihcons hrest
      refine ⟨by simpa using h1, ?_⟩
      rw [h2]
      simp only [hlookD]
      simp

/-- Claim C9: after a named argument not in the expected-arguments table
has been parsed (pending `name` with no values yet), the parser assigns
it at most one following non-dash token as its value — exactly the first
one — and every further non-dash token before the next dash-led token is
appended to the default (empty-name) argument's value list instead. -/
theorem parseRawArguments_unexpected_named (s : ParseState) (t0 : QStr)
    (rest : List QStr)
    (hd0 : startsWithDash t0 = false)
    (hdr : ∀ t ∈ rest, startsWithDash t = false)
    (hn : s.name ≠ [])
    (hexp : tableContains s.expected s.name = false)
    (hv : s.values = []) :
    (List.foldl parseStep s (t0 :: rest)).values = [t0] ∧
    (List.foldl parseStep s (t0 :: rest)).name = s.name ∧
    (rest = [] → (List.foldl parseStep s (t0 :: rest)).table = s.table) ∧
    (rest ≠ [] →
      lookupT (List.foldl parseStep s (t0 :: rest)).table s.name =
        some [t0] ∧
      lookupT (List.foldl parseStep s (t0 :: rest)).table [] =
        some ((lookupT s.table []).getD [] ++ rest)) := by
  have hstep : parseStep s t0 =
      ⟨s.table, s.expected, s.name, [t0]⟩ := by
    simp [parseStep, hd0, hexp, hv]
  have he : (lookupT s.expected s.name).getD [] = [] := by
    rw [lookupT_eq_none_of_not_contains s.expected s.name hexp]
    rfl
  rw [List.foldl_cons, hstep]
  obtain ⟨rn, rv, rnil, rcons⟩ :=
    parseStep_overflow_run rest ⟨s.table, s.expected, s.name, [t0]⟩ hdr hn
      (by simp) he
  refine ⟨rv, rn, fun h => ?_, fun h => ?_⟩
  · rw [rnil h]
  · exact rcons h

/-- Witness for claim C9: state pending an unexpected name `x`, tokens
`u v w`: `u` becomes the single value of `x`, `v` and `w` land in the
default argument's list. -/
theorem parseRawArguments_unexpected_named_witness :
    (List.foldl parseStep ⟨[], [], ['x'], []⟩ [['u'], ['v'], ['w']]).values =
      [['u']] ∧
    (List.foldl parseStep ⟨[], [], ['x'], []⟩ [['u'], ['v'], ['w']]).name =
      (⟨[], [], ['x'], []⟩ : ParseState).name ∧
    ([['v'], ['w']] = ([] : List QStr) →
      (List.foldl parseStep ⟨[], [], ['x'], []⟩ [['u'], ['v'], ['w']]).table =
        (⟨[], [], ['x'], []⟩ : ParseState).table) ∧
    ([['v'], ['w']] ≠ ([] : List QStr) →
      lookupT (List.foldl parseStep ⟨[], [], ['x'], []⟩
          [['u'], ['v'], ['w']]).table
          (⟨[], [], ['x'], []⟩ : ParseState).name = some [['u']] ∧
      lookupT (List.foldl parseStep ⟨[], [], ['x'], []⟩
          [['u'], ['v'], ['w']]).table [] =
        some ((lookupT (⟨[], [], ['x'], []⟩ : ParseState).table []).getD [] ++
          [['v'], ['w']])) :=
  parseRawArguments_unexpected_named ⟨[], [], ['x'], []⟩ ['u'] [['v'], ['w']]
    (by decide) (by decide) (by decide) (by decide) (by decide)

/-! ## Claims about the theme broadcast (C7, C10) -/

theorem ascTraceL_mem_shape (l : List QQuickItem) (p : List ℕ)
    (h : p ∈ ascTraceL l) : ∃ i q, p = i :: q := by
  induction l generalizing p with
  | nil => simp [ascTraceL] at h
  | cons c rest ih =>
    obtain ⟨s, grand⟩ := c
    simp only [ascTraceL, List.mem_cons, List.mem_append] at h
    rcases h with h | h | h
    · exact ⟨0, [], h⟩
    · have hx : ∃ x, p = 0 :: x := by
        split at h
        · simp at h
        · obtain ⟨a, ha, hb⟩ := List.mem_map.mp h
          exact ⟨a, hb.symm⟩
      obtain ⟨x, hx⟩ := hx
      exact ⟨0, x, hx⟩
    · obtain ⟨a, ha, hb⟩ := List.mem_map.mp h
      obtain ⟨i, q, rfl⟩ := ih a ha
      exact ⟨i + 1, q, hb ▸ rfl⟩

theorem subAtL_cons_path (l : List QQuickItem) (i : ℕ) (q : List ℕ) :
    subAtL l (i :: q) =
      match l.get? i with
      | none => none
      | some c => if q.isEmpty then some c else subAtL c.childItems q := by
  induction l generalizing i with
  | nil => cases i <;> simp [subAtL]
  | cons c rest ih =>
    obtain ⟨s, grand⟩ := c
    cases i with
    | zero => simp [subAtL, QQuickItem.childItems]
    | succ j => simpa [subAtL] using ih j

theorem count_bumpPath_zero (tr : List (List ℕ))
    (hsh : ∀ p ∈ tr, ∃ i q, p = i :: q) (q : List ℕ) :
    (tr.map bumpPath).count (0 :: q) = 0 := by
  rw [List.count_eq_zero]
  intro hm
  obtain ⟨a, ha, hb⟩ := List.mem_map.mp hm
  obtain ⟨i, x, rfl⟩ := hsh a ha
  simp [bumpPath] at hb


theorem count_map_consZero (tr : List (List ℕ)) (q : List ℕ) :
    (tr.map fun p => 0 :: p).count (0 :: q) = tr.count q := by
  induction tr with
  | nil => rfl
  | cons a tr ih =>
    simp only [List.map_cons, List.count_cons, ih]
    by_cases h : a = q
    · subst h; simp
    · simp [h]

theorem count_map_bump (tr : List (List ℕ)) (j : ℕ) (q : List ℕ) :
    (tr.map bumpPath).count ((j + 1) :: q) = tr.count (j :: q) := by
  induction tr with
  | nil => rfl
  | cons a tr ih =>
    simp only [List.map_cons, List.count_cons, ih]
    by_cases h : a = j :: q
    · subst h; simp [bumpPath]
    · have hne : bumpPath a ≠ (j + 1) :: q := by
        cases a with
        | nil => simp [bumpPath]
        | cons i p =>
          simp only [bumpPath, ne_eq, List.cons.injEq, not_and]
          intro hij hpq
          apply h
          have hi : i = j := by omega
          rw [hi, hpq]
      simp [h, hne]

theorem ascTraceL_count_fuel (n : ℕ) : ∀ l : List QQuickItem, sizeOf l ≤ n →
    ∀ p : List ℕ,
      (ascTraceL l).count p = if (subAtL l p).isSome then 1 else 0 := by
  induction n with
  | zero =>
    intro l hl p
    exfalso
    cases l <;> simp at hl
  | succ n ih =>
    intro l hl p
    cases l with
    | nil => cases p <;> simp [ascTraceL, subAtL]
    | cons c rest =>
      obtain ⟨s, grand⟩ := c
      simp only [List.cons.sizeOf_spec, QQuickItem.mk.sizeOf_spec] at hl
      have hg : sizeOf grand ≤ n := by omega
      have hr : sizeOf rest ≤ n := by omega
      have hshg := ascTraceL_mem_shape grand
      have hshr := ascTraceL_mem_shape rest
      rw [ascTraceL]
      cases p with
      | nil =>
        have h1 : ((if grand.isEmpty then []
            else (ascTraceL grand).map fun p => 0 :: p) ++
              (ascTraceL rest).map bumpPath).count ([] : List ℕ) = 0 := by
          rw [List.count_eq_zero]
          intro hm
          rcases List.mem_append.mp hm with h | h
          · split at h
            · simp at h
            · obtain ⟨a, _, hb⟩ := List.mem_map.mp h
              simp at hb
          · obtain ⟨a, ha, hb⟩ := List.mem_map.mp h
            obtain ⟨i, x, rfl⟩ := hshr a ha
            simp [bumpPath] at hb
        rw [List.count_cons, h1]
        simp [subAtL]
      | cons i q =>
        cases i with
        | zero =>
          rw [subAtL_cons_path]
          by_cases hqe : q = []
          · subst hqe
            rw [List.count_cons, List.count_append,
              count_bumpPath_zero _ hshr]
            have hA : (if grand.isEmpty then []
                else (ascTraceL grand).map fun p => 0 :: p).count [0] = 0 := by
              split
              · simp
              · rw [List.count_eq_zero]
                intro hm
                obtain ⟨a, ha, hb⟩ := List.mem_map.mp hm
                obtain ⟨j, x, rfl⟩ := hshg a ha
                simp at hb
            rw [hA]
            simp [List.get?]
          · have hq2 : q.isEmpty = false := by simp [hqe]
            rw [List.count_cons, List.count_append,
              count_bumpPath_zero _ hshr]
            have hhead : (if ([0] : List ℕ) == 0 :: q then 1 else 0) = 0 := by
              simp [hqe]
            by_cases hge : grand.isEmpty
            · have hgnil : grand = [] := by simpa using hge
              subst hgnil
              simp only [hge, if_true, List.count_nil]
              cases q with
              | nil => exact absurd rfl hqe
              | cons j x => simp [subAtL, List.get?, hq2, QQuickItem.childItems]
            · rw [if_neg hge, count_map_consZero, ih grand hg q]
              simp [List.get?, hq2, QQuickItem.childItems, hqe]
        | succ j =>
          rw [subAtL_cons_path]
          rw [List.count_cons, List.count_append]
          have hA : (if grand.isEmpty then []
              else (ascTraceL grand).map fun p => 0 :: p).count ((j + 1) :: q) = 0 := by
            split
            · simp
            · rw [List.count_eq_zero]
              intro hm
              obtain ⟨a, _, hb⟩ := List.mem_map.mp hm
              simp at hb
          rw [hA, count_map_bump, ih rest hr (j :: q), subAtL_cons_path]
          simp [List.get?]

theorem themeTraceL_mem_shape (l : List QQuickItem) (p : List ℕ)
    (h : p ∈ themeTraceL l) : ∃ i q, p = i :: q := by
  induction l generalizing p with
  | nil => simp [themeTraceL] at h
  | cons c rest ih =>
    obtain ⟨s, grand⟩ := c
    simp only [themeTraceL, List.mem_cons, List.mem_append] at h
    rcases h with h | h | h
    · exact ⟨0, [], h⟩
    · have hx : ∃ x, p = 0 :: x := by
        split at h
        · simp at h
        · obtain ⟨a, ha, hb⟩ := List.mem_map.mp h
          exact ⟨a, hb.symm⟩
      obtain ⟨x, hx⟩ := hx
      exact ⟨0, x, hx⟩
    · obtain ⟨a, ha, hb⟩ := List.mem_map.mp h
      obtain ⟨i, q, rfl⟩ := ih a ha
      exact ⟨i + 1, q, hb ▸ rfl⟩

theorem themeTraceL_mem_iff (l : List QQuickItem) : ∀ (i : ℕ) (q : List ℕ),
    (i :: q) ∈ themeTraceL l ↔
      ∃ s grand, l.get? i = some (QQuickItem.mk s grand) ∧
        (q = [] ∨ (grand ≠ [] ∧ s = false ∧ q ∈ themeTraceL grand)) := by
  induction l with
  | nil => intro i q; simp [themeTraceL, List.get?]
  | cons c rest ih =>
    obtain ⟨s, grand⟩ := c
    intro i q
    cases i with
    | zero =>
      rw [themeTraceL]
      simp only [List.mem_cons, List.mem_append, List.get?]
      constructor
      · rintro (h | h | h)
        · have hq : q = [] := by simpa using h
          exact ⟨s, grand, rfl, Or.inl hq⟩
        · by_cases hc : (grand.isEmpty || s) = true
          · rw [if_pos hc] at h
            simp at h
          · rw [if_neg hc] at h
            obtain ⟨a, ha, hb⟩ := List.mem_map.mp h
            have haq : a = q := by simpa using hb
            rw [haq] at ha
            simp only [Bool.or_eq_true, not_or, Bool.not_eq_true] at hc
            refine ⟨s, grand, rfl, Or.inr ⟨by simpa using hc.1, hc.2, ha⟩⟩
        · exfalso
          obtain ⟨a, ha, hb⟩ := List.mem_map.mp h
          obtain ⟨j, x, rfl⟩ := themeTraceL_mem_shape rest a ha
          simp [bumpPath] at hb
      · rintro ⟨s2, g2, hsome, hrest⟩
        have hs2 : s = s2 ∧ grand = g2 := by
          simpa [QQuickItem.mk.injEq] using hsome
        obtain ⟨rfl, rfl⟩ := hs2
        rcases hrest with rfl | ⟨hg, hs, hq⟩
        · exact Or.inl rfl
        · have hc : ¬ ((grand.isEmpty || s) = true) := by simp [hs, hg]
          refine Or.inr (Or.inl ?_)
          rw [if_neg hc]
          exact List.mem_map.mpr ⟨q, hq, rfl⟩
    | succ j =>
      have hstep : ((j + 1) :: q ∈ themeTraceL (QQuickItem.mk s grand :: rest)) ↔
          ((j :: q) ∈ themeTraceL rest) := by
        rw [themeTraceL]
        simp only [List.mem_cons, List.mem_append]
        constructor
        · rintro (h | h | h)
          · simp at h
          · exfalso
            by_cases hc : (grand.isEmpty || s) = true
            · rw [if_pos hc] at h
              simp at h
            · rw [if_neg hc] at h
              obtain ⟨a, _, hb⟩ := List.mem_map.mp h
              simp at hb
          · obtain ⟨a, ha, hb⟩ := List.mem_map.mp h
            obtain ⟨j2, x, rfl⟩ := themeTraceL_mem_shape rest a ha
            simp only [bumpPath, List.cons.injEq] at hb
            obtain ⟨hj, rfl⟩ := hb
            have : j2 = j := by omega
            rwa [this] at ha
        · intro h
          exact Or.inr (Or.inr (List.mem_map.mpr ⟨j :: q, h, rfl⟩))
      rw [hstep, ih j q]
      rfl

theorem ascTraceL_count (l : List QQuickItem) (p : List ℕ) :
    (ascTraceL l).count p = if (subAtL l p).isSome then 1 else 0 :=
  ascTraceL_count_fuel (sizeOf l) l le_rfl p

/-- Claim C7: whenever the extended item's parent changes, the ascendant
update event is re-sent to every descendant of the item exactly once
(descendants are identified by their child-index path; paths that do not
denote a descendant receive no delivery).  Delivery is synchronous:
`ASYNC_BROADCAST` is undefined, so `QGuiApplication::sendEvent` is used
and the returned delivery sequence is complete when the broadcast call
returns. -/
theorem handleParentChanged_each_descendant_once (item : QQuickItem)
    (p : List ℕ) :
    (handleParentChanged item).count p =
      if (subAtL item.childItems p).isSome then 1 else 0 :=
  ascTraceL_count item.childItems p

/-- Claim C10: `broadcastThemeUpdate` never recurses below a styled
child: a `UCStyledItemBase` child receives the event itself, but none of
its descendants is visited; `broadcastAscendantUpdate` recurses into
every child with children unconditionally, so the same descendants are
visited even below the styled child. -/
theorem broadcastThemeUpdate_stops_at_styled (t : QQuickItem) (i : ℕ)
    (c : QQuickItem) (hc : t.childItems.get? i = some c)
    (hs : c.styled = true) :
    [i] ∈ broadcastThemeUpdate t ∧
    (∀ q : List ℕ, q ≠ [] → (i :: q) ∉ broadcastThemeUpdate t) ∧
    (∀ q : List ℕ, q ≠ [] → (subAtL c.childItems q).isSome = true →
      (i :: q) ∈ broadcastAscendantUpdate t) := by
  obtain ⟨sc, gc⟩ := c
  have hsc : sc = true := hs
  refine ⟨?_, ?_, ?_⟩
  · exact (themeTraceL_mem_iff t.childItems i []).mpr ⟨sc, gc, hc, Or.inl rfl⟩
  · intro q hq hmem
    obtain ⟨s2, g2, hsome, hrest⟩ :=
      (themeTraceL_mem_iff t.childItems i q).mp hmem
    rw [hc] at hsome
    have heq : sc = s2 ∧ gc = g2 := by
      simpa [QQuickItem.mk.injEq] using hsome
    obtain ⟨rfl, rfl⟩ := heq
    rcases hrest with h | ⟨_, hsf, _⟩
    · exact hq h
    · rw [hsc] at hsf
      exact absurd hsf (by simp)
  · intro q hq hsub
    have hqe : q.isEmpty = false := by simp [hq]
    have h1 : (broadcastAscendantUpdate t).count (i :: q) = 1 := by
      have hcount := ascTraceL_count t.childItems (i :: q)
      rw [subAtL_cons_path, hc] at hcount
      simp only [hqe, Bool.false_eq_true, if_false] at hcount
      rw [broadcastAscendantUpdate, hcount]
      simp [hsub]
    exact List.count_pos_iff.mp (by rw [h1]; norm_num)

/-- A tree whose single child is styled and has one grandchild. -/
def c10tree : QQuickItem :=
  .mk false [.mk true [.mk false []]]

/-- Witness for claim C10 at `c10tree`. -/
theorem broadcastThemeUpdate_stops_at_styled_witness :
    [0] ∈ broadcastThemeUpdate c10tree ∧
    ([0, 0] ∉ broadcastThemeUpdate c10tree) ∧
    [0, 0] ∈ broadcastAscendantUpdate c10tree := by
  obtain ⟨h1, h2, h3⟩ := broadcastThemeUpdate_stops_at_styled c10tree 0
    (QQuickItem.mk true [QQuickItem.mk false []]) rfl rfl
  exact ⟨h1, h2 [0] (by decide),
    h3 [0] (by decide) (by simp [subAtL, QQuickItem.childItems])⟩
